import Mathlib

/-!
Verification of the procedure (custom-block) management core of the
scratch3 repository (`Blockly.Procedures`, file `src/unnamed/part_000`).

The JavaScript source is shallowly embedded: the block graph is a pure
data structure, stateful operations thread explicit state and return an
event log, and operations that can throw a JavaScript `TypeError`
return `Except JsError`.  The potentially non-terminating
name-disambiguation loop is embedded with explicit fuel (`Option`
result, `none` = the loop has not finished within the given fuel, for
every fuel).

Externally-owned collaborators (workspace traversal, `Blockly.Names`,
the event facility) are modelled from their documented interfaces in
the specification; everything under `Blockly.Procedures` is translated
directly from the source.
-/

namespace Procedures

/-- A procedure signature tuple `(name, parameterNames, hasReturnValue)`,
as returned by `block.getProcedureDef()`. -/
structure ProcTuple where
  name : String
  params : List String
  hasReturn : Bool
deriving Repr, DecidableEq

/-- A block of the workspace graph.  Capability-gated methods of the
JavaScript block object are modelled as `Option`-valued fields:
`procDef = none` means the block has no `getProcedureDef` method,
`procDef = some none` means the method exists but returns `null`.
`mutation` is the serialized form of `mutationToDom()` (`none` = the
method returned `null`).  JavaScript reference equality between blocks
of one workspace is modelled by the unique `id`. -/
structure Block where
  id : Nat
  type : String
  procDef : Option (Option ProcTuple)
  procCode : Option String
  canRename : Bool
  isInFlyout : Bool
  mutation : Option String
deriving Repr, DecidableEq

/-- A top-level stack: its root block and the remaining descendants in
traversal order; `root.getDescendants()` returns `root :: rest`. -/
structure Stack where
  root : Block
  rest : List Block
deriving Repr, DecidableEq

/-- Model of `block.getDescendants()` for a stack root. -/
def Stack.descendants (s : Stack) : List Block :=
  s.root :: s.rest

/-- A workspace: the ordered collection of top-level stacks. -/
structure Workspace where
  topBlocks : List Stack
deriving Repr, DecidableEq

/-- Modelled from the spec: `workspace.getAllBlocks()` — every block of
the workspace, stack by stack in top-block order, each stack in
descendant order. -/
def Workspace.getAllBlocks (ws : Workspace) : List Block :=
  ws.topBlocks.flatMap Stack.descendants

/-- A JavaScript runtime error (all the errors reachable in this core
are `TypeError`s from dereferencing `null`/`undefined`). -/
inductive JsError
  | typeError
deriving Repr, DecidableEq

/-- ASCII lowercasing of one character (the fragment of
`String.prototype.toLowerCase` exercised by this development). -/
def lowerChar (c : Char) : Char :=
  if 65 ≤ c.toNat ∧ c.toNat ≤ 90 then Char.ofNat (c.toNat + 32) else c

/-- ASCII lowercasing of a string. -/
def toLowerJs (s : String) : String :=
  String.mk (s.data.map lowerChar)

/-- Modelled from the spec: `Blockly.Names.equals` — case-insensitive
string equality (ASCII lowercasing). -/
def namesEquals (a b : String) : Bool :=
  toLowerJs a == toLowerJs b

/-- Lexicographic (code-point) strict comparison of character lists. -/
def lexLtChars : List Char → List Char → Bool
  | [], [] => false
  | [], _ :: _ => true
  | _ :: _, [] => false
  | a :: as, b :: bs =>
    if a.toNat < b.toNat then true
    else if b.toNat < a.toNat then false
    else lexLtChars as bs

/-- Lexicographic (code-point) strict comparison of strings. -/
def strLt (a b : String) : Bool :=
  lexLtChars a.data b.data

/-- Decidable equality for `Except` results (not provided by the
core library). -/
instance exceptDecEq {ε α : Type} [DecidableEq ε] [DecidableEq α] :
    DecidableEq (Except ε α)
  | .error e, .error f =>
    if h : e = f then .isTrue (congrArg Except.error h)
    else .isFalse (fun hc => h (Except.error.inj hc))
  | .error _, .ok _ => .isFalse (fun hc => Except.noConfusion hc)
  | .ok _, .error _ => .isFalse (fun hc => Except.noConfusion hc)
  | .ok x, .ok y =>
    if h : x = y then .isTrue (congrArg Except.ok h)
    else .isFalse (fun hc => h (Except.ok.inj hc))

/-! ### `Blockly.Procedures.allProcedures` -/

/-- The loop body of `allProcedures`: one pass over the block list
pushing non-null procedure tuples onto the no-return / with-return
lists (`if (blocks[i].getProcedureDef) { var tuple = ...; if (tuple) ... }`). -/
def partitionProcs : List Block → List ProcTuple × List ProcTuple
  | [] => ([], [])
  | b :: bs =>
    let rest := partitionProcs bs
    match b.procDef with
    | some (some t) =>
      if t.hasReturn then (rest.1, t :: rest.2) else (t :: rest.1, rest.2)
    | _ => rest

/-- Embedding of `Blockly.Procedures.procTupleComparator_`: compares the lowercased
names.  `String.prototype.localeCompare` is modelled as code-point
comparison of the (ASCII-)lowercased names, returning -1, 0 or 1. -/
def procTupleComparator_ (ta tb : ProcTuple) : Int :=
  if strLt (toLowerJs ta.name) (toLowerJs tb.name) then -1
  else if strLt (toLowerJs tb.name) (toLowerJs ta.name) then 1
  else 0

/-- The ordering induced by the comparator, as used by `Array.prototype.sort`:
`ta` may stay before `tb` iff the comparator is non-positive. -/
def compLe (ta tb : ProcTuple) : Prop :=
  procTupleComparator_ ta tb ≤ 0

instance : DecidableRel compLe := fun ta tb =>
  inferInstanceAs (Decidable (procTupleComparator_ ta tb ≤ 0))

/-- Model of `Array.prototype.sort(comparator)` (ES2019 and later: guaranteed
stable), modelled as a stable insertion sort by the comparator order. -/
def jsSort (l : List ProcTuple) : List ProcTuple :=
  l.insertionSort compLe

/-- Embedding of `Blockly.Procedures.allProcedures`: partition the non-null procedure
tuples of all blocks by the return flag, then sort each list with
`procTupleComparator_`. -/
def allProcedures (ws : Workspace) : List ProcTuple × List ProcTuple :=
  let p := partitionProcs ws.getAllBlocks
  (jsSort p.1, jsSort p.2)

/-! ### `Blockly.Procedures.isNameUsed` and `isLegalName_` -/

/-- Does the loop of `isNameUsed` skip this block because it is
`opt_exclude` (`blocks[i] == opt_exclude`, reference equality modelled
by block ids)? -/
def isExcluded (excl : Option Block) (b : Block) : Bool :=
  match excl with
  | some e => b.id == e.id
  | none => false

/-- The loop of `Blockly.Procedures.isNameUsed`.  Note the source
returns `false` as soon as a matching definition is found and `true`
after the loop — despite its doc comment ("True if the name is used").
Also note `procName[0]` is read without a null guard: a
definition-capable block whose `getProcedureDef()` yields `null`
raises a `TypeError`. -/
def isNameUsedGo (name : String) (excl : Option Block) :
    List Block → Except JsError Bool
  | [] => .ok true
  | b :: bs =>
    if isExcluded excl b then isNameUsedGo name excl bs
    else
      match b.procDef with
      | none => isNameUsedGo name excl bs
      | some none => .error .typeError
      | some (some t) =>
        if namesEquals t.name name then .ok false
        else isNameUsedGo name excl bs

/-- Embedding of `Blockly.Procedures.isNameUsed`. -/
def isNameUsed (name : String) (ws : Workspace) (excl : Option Block) :
    Except JsError Bool :=
  isNameUsedGo name excl ws.getAllBlocks

/-- Embedding of `Blockly.Procedures.isLegalName_`: the negation of `isNameUsed`. -/
def isLegalName_ (name : String) (ws : Workspace) (excl : Option Block) :
    Except JsError Bool := do
  let u ← isNameUsed name ws excl
  pure (!u)

/-! ### `Blockly.Procedures.findLegalName` -/

/-- A JavaScript line terminator (not matched by `.` in a regex). -/
def isLineTerm (c : Char) : Bool :=
  c == Char.ofNat 10 || c == Char.ofNat 13 ||
  c == Char.ofNat 0x2028 || c == Char.ofNat 0x2029

/-- Split a string into the part before its maximal trailing digit run
and that digit run (the two capture groups of `/^(.*?)(\d+)$/` when it
matches). -/
def splitTrailingDigits (s : String) : String × String :=
  let rev := s.data.reverse
  (String.mk (rev.dropWhile Char.isDigit).reverse,
   String.mk (rev.takeWhile Char.isDigit).reverse)

/-- Model of `parseInt(s, 10)` on a non-empty all-digit string. -/
def parseDecimal (s : String) : Nat :=
  s.data.foldl (fun n c => n * 10 + (c.toNat - 48)) 0

/-- One collision step of `findLegalName`: if the name matches
`/^(.*?)(\d+)$/` (a trailing digit run, and `.` cannot match a line
terminator in the stem), increment the trailing integer, else append
the literal digit 2. -/
def nextName (name : String) : String :=
  let sd := splitTrailingDigits name
  if sd.2 == "" || sd.1.data.any isLineTerm then name ++ "2"
  else sd.1 ++ toString (parseDecimal sd.2 + 1)

/-- The `while (!isLegalName_(name, block.workspace, block))` loop of
`findLegalName`, with explicit fuel; `none` means the loop has not
exited within `fuel` iterations. -/
def findLegalNameLoop :
    Nat → String → Block → Workspace → Option (Except JsError String)
  | 0, _, _, _ => none
  | fuel + 1, name, block, ws =>
    match isLegalName_ name ws (some block) with
    | .error e => some (.error e)
    | .ok true => some (.ok name)
    | .ok false => findLegalNameLoop fuel (nextName name) block ws

/-- Embedding of `Blockly.Procedures.findLegalName` (with fuel for the collision
loop): names in flyouts are returned unchanged. -/
def findLegalName (fuel : Nat) (name : String) (block : Block)
    (ws : Workspace) : Option (Except JsError String) :=
  if block.isInFlyout then some (.ok name)
  else findLegalNameLoop fuel name block ws

/-! ### `Blockly.Procedures.rename` -/

/-- The whitespace class `[\s\xa0]` of the trimming regex in `rename`
(JavaScript `\s`). -/
def isJsSpace (c : Char) : Bool :=
  c == Char.ofNat 32 || c == Char.ofNat 9 || c == Char.ofNat 10 ||
  c == Char.ofNat 11 || c == Char.ofNat 12 || c == Char.ofNat 13 ||
  c == Char.ofNat 0xa0 || c == Char.ofNat 0x1680 ||
  (0x2000 ≤ c.toNat && c.toNat ≤ 0x200a) ||
  c == Char.ofNat 0x2028 || c == Char.ofNat 0x2029 ||
  c == Char.ofNat 0x202f || c == Char.ofNat 0x205f ||
  c == Char.ofNat 0x3000 || c == Char.ofNat 0xfeff

/-- Model of the trimming regex replacement in `rename`: strip leading and
trailing whitespace, leaving internal whitespace untouched. -/
def jsTrim (s : String) : String :=
  String.mk (((s.data.dropWhile isJsSpace).reverse.dropWhile isJsSpace).reverse)

/-- A rename instruction sent to a caller:
`blocks[i].renameProcedure(oldName, legalName)` recorded as
(block id, old name, new name). -/
def renameInstr (oldName legalName : String) (b : Block) :
    Nat × String × String :=
  (b.id, oldName, legalName)

/-- Embedding of `Blockly.Procedures.rename` (the field is modelled by its
`sourceBlock_` and its current text `oldName`; the effect on the
workspace is the list of `renameProcedure` instructions issued).
Returns `none` when the embedded `findLegalName` loop runs out of
fuel. -/
def rename (fuel : Nat) (raw : String) (src : Block) (oldName : String)
    (ws : Workspace) :
    Option (Except JsError (String × List (Nat × String × String))) :=
  let name := jsTrim raw
  match findLegalName fuel name src ws with
  | none => none
  | some (.error e) => some (.error e)
  | some (.ok legalName) =>
    let instrs :=
      if oldName ≠ name ∧ oldName ≠ legalName then
        (ws.getAllBlocks.filter (·.canRename)).map
          (renameInstr oldName legalName)
      else []
    some (.ok (legalName, instrs))

/-! ### `Blockly.Procedures.getCallers` -/

/-- First loop of `getCallers`: concatenate the descendants of every
top-level stack, skipping the stack whose root is `definitionRoot`
when recursion is disallowed.  When `getCallers` is invoked without a
`definitionRoot` argument (as `mutateCallers` does), evaluating
`definitionRoot.id` raises a `TypeError` at the first iteration. -/
def collectStacks :
    List Stack → Option Block → Bool → Except JsError (List Block)
  | [], _, _ => .ok []
  | s :: rest, defRoot, allowRec =>
    match defRoot with
    | none => .error .typeError
    | some dr =>
      if s.root.id == dr.id && !allowRec then
        collectStacks rest defRoot allowRec
      else do
        let tail ← collectStacks rest defRoot allowRec
        .ok (s.descendants ++ tail)

/-- Second loop of `getCallers`: keep blocks of type
`procedures_callnoreturn` whose `getProcCode()` is truthy (a non-empty
string) and equals the name exactly (case-sensitively). -/
def callerMatch (name : String) (b : Block) : Bool :=
  b.type == "procedures_callnoreturn" &&
    (match b.procCode with
     | some c => !(c == "") && c == name
     | none => false)

/-- Embedding of `Blockly.Procedures.getCallers`. -/
def getCallers (name : String) (ws : Workspace)
    (definitionRoot : Option Block) (allowRecursive : Bool) :
    Except JsError (List Block) := do
  let allBlocks ← collectStacks ws.topBlocks definitionRoot allowRecursive
  .ok (allBlocks.filter (callerMatch name))

/-! ### `Blockly.Procedures.mutateCallers` -/

/-- Ambient state threaded through `mutateCallers`: the workspace and
the global `Blockly.Events.recordUndo` flag. -/
structure EvState where
  ws : Workspace
  recordUndo : Bool
deriving Repr, DecidableEq

/-- A fired `Blockly.Events.BlockChange('mutation', ...)` notification,
together with the value the global record-undo flag had at the moment
`Blockly.Events.fire` ran. -/
structure FireEvt where
  blockId : Nat
  oldMutation : Option String
  newMutation : Option String
  recordedWithUndo : Bool
deriving Repr, DecidableEq

/-- Model of `caller.domToMutation(xmlElement)`: set the mutation snapshot of the
block with the given id throughout the workspace. -/
def setMutation (ws : Workspace) (blockId : Nat) (xml : Option String) :
    Workspace :=
  ⟨ws.topBlocks.map (fun s =>
    let upd := fun (b : Block) =>
      if b.id == blockId then { b with mutation := xml } else b
    ⟨upd s.root, s.rest.map upd⟩)⟩

/-- The per-caller loop of `mutateCallers`: capture the old snapshot,
apply the definition's snapshot, capture the new snapshot, and iff the
serialized forms differ, fire one change notification with the
record-undo flag cleared, restoring it right after the emission. -/
def mutateCallersLoop (xmlElement : Option String) (oldRecordUndo : Bool) :
    List Block → EvState → List FireEvt → EvState × List FireEvt
  | [], st, log => (st, log)
  | caller :: rest, st, log =>
    let oldMutation := caller.mutation
    let st1 : EvState := { st with ws := setMutation st.ws caller.id xmlElement }
    let newMutation := xmlElement
    if oldMutation ≠ newMutation then
      let st2 : EvState := { st1 with recordUndo := false }
      let log2 := log ++ [⟨caller.id, oldMutation, newMutation, st2.recordUndo⟩]
      let st3 : EvState := { st2 with recordUndo := oldRecordUndo }
      mutateCallersLoop xmlElement oldRecordUndo rest st3 log2
    else
      mutateCallersLoop xmlElement oldRecordUndo rest st1 log

/-- Embedding of `Blockly.Procedures.mutateCallers`.  Faithful to the source, which
reads `defBlock.getProcedureDef()[0]` without a guard and then calls
`Blockly.Procedures.getCallers(name, defBlock.workspace)` with only
two arguments, leaving `definitionRoot` and `allowRecursive`
`undefined`. -/
def mutateCallers (defBlock : Block) (st : EvState) :
    Except JsError (EvState × List FireEvt) := do
  let oldRecordUndo := st.recordUndo
  match defBlock.procDef with
  | none => .error .typeError
  | some none => .error .typeError
  | some (some t) =>
    let name := t.name
    let xmlElement := defBlock.mutation
    let callers ← getCallers name st.ws none false
    .ok (mutateCallersLoop xmlElement oldRecordUndo callers st [])

/-! ### `Blockly.Procedures.getDefinition` -/

/-- The loop of `getDefinition` over `workspace.getTopBlocks(false)`:
first top block with a non-null procedure tuple whose name
case-insensitively equals `name`. -/
def getDefinitionGo (name : String) : List Stack → Option Block
  | [] => none
  | s :: rest =>
    match s.root.procDef with
    | some (some t) =>
      if namesEquals t.name name then some s.root
      else getDefinitionGo name rest
    | _ => getDefinitionGo name rest

/-- Embedding of `Blockly.Procedures.getDefinition`. -/
def getDefinition (name : String) (ws : Workspace) : Option Block :=
  getDefinitionGo name ws.topBlocks

/-! ### `Blockly.Procedures.deleteProcedureDefCallback` -/

/-- One entry of the event-group / disposal trace of
`deleteProcedureDefCallback`. -/
inductive DelAction
  | setGroup (b : Bool)
  | dispose (rootId : Nat)
deriving Repr, DecidableEq

/-- Model of `definitionRoot.dispose()` for a stack root: remove the whole stack
rooted at the block from the workspace (spec: "removes the entire
definition subtree"). -/
def disposeStack (ws : Workspace) (rootId : Nat) : Workspace :=
  ⟨ws.topBlocks.filter (fun s => !(s.root.id == rootId))⟩

/-- Embedding of `Blockly.Procedures.deleteProcedureDefCallback`: refuse while
non-recursive callers exist, otherwise dispose the whole stack inside
a single event group.  Returns the boolean result, the resulting
workspace, and the trace of group/dispose actions. -/
def deleteProcedureDefCallback (procCode : String) (definitionRoot : Block)
    (ws : Workspace) : Except JsError (Bool × Workspace × List DelAction) := do
  let callers ← getCallers procCode ws (some definitionRoot) false
  if callers.length > 0 then
    .ok (false, ws, [])
  else
    .ok (true, disposeStack ws definitionRoot.id,
      [.setGroup true, .dispose definitionRoot.id, .setGroup false])

/-! ### Spec-side definitions (for refinement comparisons) -/

/-- Following the spec's words: a call-type block ("call-no-return" or
"call-with-return" type tag). -/
def specCallType (b : Block) : Bool :=
  b.type == "procedures_callnoreturn" || b.type == "procedures_callreturn"

/-- Following the spec's words: this block is a non-excluded definition
whose name case-insensitively equals `name`. -/
def matchingDef (name : String) (excl : Option Block) (b : Block) : Bool :=
  !(isExcluded excl b) &&
    (match b.procDef with
     | some (some t) => namesEquals t.name name
     | _ => false)

/-- Following the spec's words: `name` is used iff some block other
than `excludeBlock` is a definition whose name case-insensitively
equals `name`. -/
def specNameUsed (name : String) (ws : Workspace) (excl : Option Block) :
    Bool :=
  ws.getAllBlocks.any (matchingDef name excl)

/-- The non-null procedure tuple of a block, if any. -/
def blockTuple (b : Block) : Option ProcTuple :=
  match b.procDef with
  | some (some t) => some t
  | _ => none

/-- The procedure tuples exposed by the blocks of a workspace, in
`getAllBlocks` order (capability present and tuple non-null). -/
def procDefsOf (ws : Workspace) : List ProcTuple :=
  ws.getAllBlocks.filterMap blockTuple

/-- Tuples whose lowercased name is a given string: the equivalence
classes of the sort comparator, used to state sort stability. -/
def pKey (s : String) (t : ProcTuple) : Bool :=
  toLowerJs t.name == s

/-! ### Concrete workspaces used as test inputs -/

/-- A definition block for the procedure `foo`. -/
def defFooBlock : Block :=
  ⟨1, "procedures_definition", some (some ⟨"foo", [], false⟩), none, false,
   false, some "mutDef"⟩

/-- A `procedures_callnoreturn` caller of `foo` that also supports
`renameProcedure`. -/
def callerFooBlock : Block :=
  ⟨2, "procedures_callnoreturn", none, some "foo", true, false, some "mutCall"⟩

/-- A `procedures_callreturn` block whose call identifier is `foo`. -/
def callRetBlock : Block :=
  ⟨3, "procedures_callreturn", none, some "foo", true, false, none⟩

/-- A definition block for the procedure `foo2`. -/
def defFoo2Block : Block :=
  ⟨4, "procedures_definition", some (some ⟨"foo2", [], false⟩), none, false,
   false, none⟩

/-- A definition-capable block whose `getProcedureDef()` returns
`null`. -/
def nullDefBlock : Block :=
  ⟨5, "procedures_definition", some none, none, false, false, none⟩

/-- A workspace holding only the definition of `foo`. -/
def wsFoo : Workspace := ⟨[⟨defFooBlock, []⟩]⟩

/-- A workspace holding the definition of `foo` and one caller of it. -/
def wsFooCaller : Workspace := ⟨[⟨defFooBlock, []⟩, ⟨callerFooBlock, []⟩]⟩

/-- A workspace holding the definition of `foo` and a
`procedures_callreturn` block calling `foo`. -/
def wsRet : Workspace := ⟨[⟨defFooBlock, []⟩, ⟨callRetBlock, []⟩]⟩

/-- A workspace with definitions `foo` and `foo2` plus a rename-capable
caller of `foo`. -/
def wsFoo2 : Workspace :=
  ⟨[⟨defFooBlock, []⟩, ⟨defFoo2Block, []⟩, ⟨callerFooBlock, []⟩]⟩

/-- A workspace whose only block is a definition-capable block with a
`null` procedure tuple. -/
def wsNullDef : Workspace := ⟨[⟨nullDefBlock, []⟩]⟩

/-- The empty-workspace ambient state with undo recording on. -/
def emptyState : EvState := ⟨⟨[]⟩, true⟩

/-! ## Helper lemmas -/

/-- On block lists without null procedure tuples (among non-excluded
blocks), the `isNameUsed` loop returns the *negation* of the spec's
"name is used" predicate. -/
theorem isNameUsedGo_eq (name : String) (excl : Option Block) :
    ∀ l : List Block,
      (∀ b ∈ l, isExcluded excl b = false → b.procDef ≠ some none) →
      isNameUsedGo name excl l = .ok (!(l.any (matchingDef name excl))) := by
  intro l
  induction l with
  | nil => intro _; rfl
  | cons b bs ih =>
    intro h
    have hbs : ∀ x ∈ bs, isExcluded excl x = false → x.procDef ≠ some none :=
      fun x hx => h x (List.mem_cons_of_mem _ hx)
    cases hex : isExcluded excl b with
    | true => simp [isNameUsedGo, hex, matchingDef, ih hbs]
    | false =>
      cases hpd : b.procDef with
      | none => simp [isNameUsedGo, hex, hpd, matchingDef, ih hbs]
      | some pd =>
        cases pd with
        | none => exact absurd hpd (h b (List.mem_cons_self b bs) hex)
        | some t =>
          cases hm : namesEquals t.name name with
          | true => simp [isNameUsedGo, hex, hpd, hm, matchingDef]
          | false => simp [isNameUsedGo, hex, hpd, hm, matchingDef, ih hbs]

/-- On the workspace holding only the definition of `foo` (which the
disambiguation context always excludes), the collision loop of
`findLegalName` never exits, whatever the fuel and the starting
name: the inverted `isNameUsed` reports every name as colliding. -/
theorem findLegalNameLoop_wsFoo (fuel : Nat) :
    ∀ name : String, findLegalNameLoop fuel name defFooBlock wsFoo = none := by
  induction fuel with
  | zero => intro _; rfl
  | succ n ih =>
    intro name
    have hstep : findLegalNameLoop (n + 1) name defFooBlock wsFoo =
        findLegalNameLoop n (nextName name) defFooBlock wsFoo := rfl
    rw [hstep]
    exact ih (nextName name)

/-- The function `getCallers` applied to a present `definitionRoot` never throws: the first
loop concatenates the descendants of the non-skipped stacks. -/
theorem collectStacks_some_eq (dr : Block) (ar : Bool) :
    ∀ l : List Stack,
      collectStacks l (some dr) ar =
        .ok ((l.filter (fun s => !(s.root.id == dr.id && !ar))).flatMap
          Stack.descendants)
  | [] => rfl
  | s :: rest => by
    have ih := collectStacks_some_eq dr ar rest
    show (if s.root.id == dr.id && !ar then collectStacks rest (some dr) ar
          else do
            let tail ← collectStacks rest (some dr) ar
            Except.ok (s.descendants ++ tail)) =
      Except.ok (((s :: rest).filter
        (fun s => !(s.root.id == dr.id && !ar))).flatMap Stack.descendants)
    simp only [List.filter_cons]
    cases hc : (s.root.id == dr.id && !ar) with
    | true => simpa using ih
    | false => simp only [if_pos, Bool.not_false, if_true]; rw [ih]; rfl

/-! ## Claim theorems -/

/-- Claim C1 (code bug): `mutateCallers(def)` is claimed to update every
caller's cached signature, but the source invokes
`Blockly.Procedures.getCallers(name, defBlock.workspace)` with only two
arguments, so `getCallers` dereferences the `undefined`
`definitionRoot` and throws a `TypeError` as soon as the workspace has
any top-level stack — here, on a workspace holding the definition of
`foo` and one caller. -/
theorem c1_mutateCallers_crashes :
    mutateCallers defFooBlock ⟨wsFooCaller, true⟩ = .error .typeError := rfl

/-- Claim C2 (code bug): on every workspace whose definition-capable
blocks all return non-null tuples, `isNameUsed` returns the *negation*
of "some block other than `excludeBlock` is a definition whose name
case-insensitively equals `name`" — the opposite of the claim and of
the function's own doc comment. -/
theorem c2_isNameUsed_inverted (name : String) (ws : Workspace)
    (excl : Option Block)
    (h : ∀ b ∈ ws.getAllBlocks, isExcluded excl b = false →
      b.procDef ≠ some none) :
    isNameUsed name ws excl = .ok (!specNameUsed name ws excl) :=
  isNameUsedGo_eq name excl ws.getAllBlocks h

/-- Witness for C2: on the workspace holding only a definition of
`foo`, `isNameUsed "foo"` evaluates to `.ok false` although the name
is in use (`specNameUsed` is `true` there). -/
theorem c2_isNameUsed_inverted_witness :
    isNameUsed "foo" wsFoo none = .ok (!specNameUsed "foo" wsFoo none) :=
  c2_isNameUsed_inverted "foo" wsFoo none (by decide)

/-- Claim C3 (code bug): `findLegalName` is claimed to terminate for every
name and finite workspace; in fact, because `isNameUsed` is inverted,
the collision loop runs while the name is *free*, so on a workspace
where `foo` clashes with nothing the loop never exits (for every fuel
bound the embedded loop is still running). -/
theorem c3_findLegalName_diverges (fuel : Nat) :
    findLegalName fuel "foo" defFooBlock wsFoo = none :=
  findLegalNameLoop_wsFoo fuel "foo"

/-- Claim C7 (code bug): `rename(x, block, x)` is claimed to return `x`
with zero caller mutations; in fact `rename "foo"` on the block whose
current name is already `foo` (and whose workspace holds nothing else)
calls `findLegalName`, whose inverted collision loop never exits. -/
theorem c7_rename_diverges (fuel : Nat) :
    rename fuel "foo" defFooBlock "foo" wsFoo = none := by
  have h : findLegalName fuel (jsTrim "foo") defFooBlock wsFoo = none :=
    findLegalNameLoop_wsFoo fuel (jsTrim "foo")
  simp [rename, h]

/-- Claim C5 counterexample: a `procedures_callreturn` block is a
call-type block (spec data model) whose call identifier exactly equals
the name, yet `getCallers` does not return it — the filter only
accepts the type `procedures_callnoreturn`. -/
theorem c5_counterexample :
    getCallers "foo" wsRet (some defFooBlock) true = .ok [] ∧
    specCallType callRetBlock = true ∧
    callRetBlock.procCode = some "foo" ∧
    callRetBlock ∈ wsRet.getAllBlocks := by
  refine ⟨rfl, rfl, rfl, by decide⟩

/-- Claim C5 as amended: with a present `definitionRoot`, `getCallers`
returns exactly the blocks of type `procedures_callnoreturn` whose
`getProcCode()` is a non-empty string exactly (case-sensitively) equal
to the name, drawn from the descendants of every top-level stack
except, when `allowRecursive` is false, the stack rooted at
`definitionRoot`, in top-block order then descendant order. -/
theorem c5_getCallers_characterization (name : String) (ws : Workspace)
    (dr : Block) (ar : Bool) :
    getCallers name ws (some dr) ar =
      .ok (((ws.topBlocks.filter
        (fun s => !(s.root.id == dr.id && !ar))).flatMap
          Stack.descendants).filter (callerMatch name)) := by
  unfold getCallers
  rw [collectStacks_some_eq dr ar ws.topBlocks]
  rfl

/-- Claim C4: `deleteProcedureDefCallback` computes the non-recursive
callers; if any exist it returns `false` leaving the workspace
untouched and emitting nothing, otherwise it disposes the whole
definition stack bracketed by a single event group and returns
`true`. -/
theorem c4_deleteProcedureDef (pc : String) (dr : Block) (ws : Workspace)
    (callers : List Block)
    (h : getCallers pc ws (some dr) false = .ok callers) :
    deleteProcedureDefCallback pc dr ws =
      .ok (if callers.isEmpty then
             (true, disposeStack ws dr.id,
              [DelAction.setGroup true, DelAction.dispose dr.id,
               DelAction.setGroup false])
           else (false, ws, [])) := by
  unfold deleteProcedureDefCallback
  rw [h]
  cases callers with
  | nil => rfl
  | cons c cs =>
    show (if (c :: cs).length > 0 then Except.ok (false, ws, [])
          else Except.ok (true, disposeStack ws dr.id,
            [DelAction.setGroup true, DelAction.dispose dr.id,
             DelAction.setGroup false])) =
      Except.ok (if (c :: cs).isEmpty then
        (true, disposeStack ws dr.id,
         [DelAction.setGroup true, DelAction.dispose dr.id,
          DelAction.setGroup false])
      else (false, ws, []))
    rw [if_pos (by simp)]
    rfl

/-- Witness for C4: deleting `foo` while an external caller exists is
refused and mutates nothing. -/
theorem c4_deleteProcedureDef_witness :
    deleteProcedureDefCallback "foo" defFooBlock wsFooCaller =
      .ok (if ([callerFooBlock] : List Block).isEmpty then
             (true, disposeStack wsFooCaller defFooBlock.id,
              [DelAction.setGroup true, DelAction.dispose defFooBlock.id,
               DelAction.setGroup false])
           else (false, wsFooCaller, [])) :=
  c4_deleteProcedureDef "foo" defFooBlock wsFooCaller [callerFooBlock] rfl

/-- Claim C6 counterexample: renaming the definition of `foo` to the
unchanged raw name `foo` on a workspace where the (inverted)
disambiguation returns the different accepted name `foo2`: the
accepted name differs from the old name, a rename-capable caller
exists, and yet no `renameProcedure` instruction is issued, because
the source also requires the trimmed name to differ from the old
name. -/
theorem c6_counterexample :
    rename 10 "foo" defFooBlock "foo" wsFoo2 = some (.ok ("foo2", [])) ∧
    callerFooBlock.canRename = true ∧
    callerFooBlock ∈ wsFoo2.getAllBlocks := by
  refine ⟨rfl, rfl, by decide⟩

/-- Claim C6 as amended: whenever the disambiguation loop terminates,
`rename` returns the accepted name, and issues a `renameProcedure`
instruction to every rename-capable block exactly when *both* the
trimmed name and the accepted name differ from the old name. -/
theorem c6_rename_behavior (fuel : Nat) (raw : String) (src : Block)
    (oldName : String) (ws : Workspace) (legal : String)
    (h : findLegalName fuel (jsTrim raw) src ws = some (.ok legal)) :
    rename fuel raw src oldName ws =
      some (.ok (legal,
        if oldName ≠ jsTrim raw ∧ oldName ≠ legal then
          (ws.getAllBlocks.filter (·.canRename)).map
            (renameInstr oldName legal)
        else [])) := by
  simp [rename, h]

/-- Witness for C6 (amended), instantiated at the counterexample's
workspace, where the loop terminates with accepted name `foo2`. -/
theorem c6_rename_behavior_witness :
    rename 10 "foo" defFooBlock "foo" wsFoo2 =
      some (.ok ("foo2",
        if "foo" ≠ jsTrim "foo" ∧ "foo" ≠ "foo2" then
          (wsFoo2.getAllBlocks.filter (·.canRename)).map
            (renameInstr "foo" "foo2")
        else [])) :=
  c6_rename_behavior 10 "foo" defFooBlock "foo" wsFoo2 "foo2" rfl

/-- Claim C9: whenever `mutateCallers` returns, the global record-undo
flag equals its value on entry, and every change notification it
emitted was fired with the flag off. -/
theorem c9_recordUndo_preserved (defBlock : Block) (st st' : EvState)
    (log : List FireEvt)
    (h : mutateCallers defBlock st = .ok (st', log)) :
    st'.recordUndo = st.recordUndo ∧
    ∀ e ∈ log, e.recordedWithUndo = false := by
  cases hpd : defBlock.procDef with
  | none => simp [mutateCallers, hpd] at h
  | some pd =>
    cases pd with
    | none => simp [mutateCallers, hpd] at h
    | some t =>
      cases htop : st.ws.topBlocks with
      | cons s rest =>
        have hval : mutateCallers defBlock st = .error .typeError := by
          unfold mutateCallers getCallers
          rw [hpd, htop]
          rfl
        rw [hval] at h
        exact Except.noConfusion h
      | nil =>
        have hval : mutateCallers defBlock st = .ok (st, []) := by
          unfold mutateCallers getCallers
          rw [hpd, htop]
          rfl
        rw [hval] at h
        injection h with h2
        injection h2 with h3 h4
        subst h3
        subst h4
        exact ⟨rfl, by simp⟩

/-- Witness for C9 at a returning invocation (empty workspace, undo
recording on at entry). -/
theorem c9_recordUndo_preserved_witness :
    emptyState.recordUndo = emptyState.recordUndo ∧
    ∀ e ∈ ([] : List FireEvt), e.recordedWithUndo = false :=
  c9_recordUndo_preserved defFooBlock emptyState emptyState [] rfl

/-- Claim C10: on a workspace containing a definition-capable block whose
`getProcedureDef()` yields `null`, `isNameUsed` throws (it indexes the
tuple with no guard) while `allProcedures` and `getDefinition` return
normally (both test the tuple first); with a non-null tuple,
`isNameUsed` also returns normally. -/
theorem c10_null_tuple_guards :
    isNameUsed "foo" wsNullDef none = .error .typeError ∧
    allProcedures wsNullDef = ([], []) ∧
    getDefinition "foo" wsNullDef = none ∧
    isNameUsed "foo" wsFoo none = .ok false :=
  ⟨rfl, rfl, rfl, rfl⟩

/-! ## Order-theoretic facts about the sort comparator (for C8) -/

/-- Unfolding equation for `lexLtChars` on two non-empty lists. -/
theorem lexLt_cons (a b : Char) (as bs : List Char) :
    lexLtChars (a :: as) (b :: bs) =
      (if a.toNat < b.toNat then true
       else if b.toNat < a.toNat then false
       else lexLtChars as bs) := rfl

/-- The strict lexicographic comparison is irreflexive. -/
theorem lexLt_irrefl : ∀ as, lexLtChars as as = false
  | [] => rfl
  | a :: as => by
    rw [lexLt_cons, if_neg (lt_irrefl _), if_neg (lt_irrefl _)]
    exact lexLt_irrefl as

/-- The strict lexicographic comparison is asymmetric. -/
theorem lexLt_asymm : ∀ as bs, lexLtChars as bs = true → lexLtChars bs as = false
  | [], [], h => by cases h
  | [], _ :: _, _ => rfl
  | _ :: _, [], h => by cases h
  | a :: as, b :: bs, h => by
    rw [lexLt_cons] at h ⊢
    rcases Nat.lt_trichotomy a.toNat b.toNat with hab | hab | hab
    · rw [if_neg (by omega), if_pos hab]
    · rw [if_neg (by omega), if_neg (by omega)]
      rw [if_neg (by omega), if_neg (by omega)] at h
      exact lexLt_asymm as bs h
    · rw [if_neg (by omega), if_pos hab] at h
      cases h

/-- The relation not-strictly-above is transitive for the lexicographic
comparison. -/
theorem lexLt_false_trans :
    ∀ as bs cs, lexLtChars bs as = false → lexLtChars cs bs = false →
      lexLtChars cs as = false := by
  intro as
  induction as with
  | nil =>
    intro bs cs h1 h2
    cases cs with
    | nil => rfl
    | cons c cs2 => rfl
  | cons a as2 ih =>
    intro bs cs h1 h2
    cases bs with
    | nil => cases h1
    | cons b bs2 =>
      cases cs with
      | nil => cases h2
      | cons c cs2 =>
        rw [lexLt_cons] at h1 h2 ⊢
        by_cases hba : b.toNat < a.toNat
        · rw [if_pos hba] at h1; cases h1
        · rw [if_neg hba] at h1
          by_cases hcb : c.toNat < b.toNat
          · rw [if_pos hcb] at h2; cases h2
          · rw [if_neg hcb] at h2
            rw [if_neg (by omega)]
            by_cases hac : a.toNat < c.toNat
            · rw [if_pos hac]
            · rw [if_neg hac]
              rw [if_neg (by omega)] at h1
              rw [if_neg (by omega)] at h2
              exact ih bs2 cs2 h1 h2

/-- Irreflexivity at the string level. -/
theorem strLt_irrefl (s : String) : strLt s s = false :=
  lexLt_irrefl s.data

/-- Asymmetry at the string level. -/
theorem strLt_asymm (a b : String) (h : strLt a b = true) : strLt b a = false :=
  lexLt_asymm a.data b.data h

/-- The comparator admits `ta` before `tb` iff the lowercased name of
`tb` is not strictly below that of `ta`. -/
theorem compLe_iff (ta tb : ProcTuple) :
    compLe ta tb ↔
      strLt (toLowerJs tb.name) (toLowerJs ta.name) = false := by
  unfold compLe procTupleComparator_
  split_ifs with h1 h2
  · exact ⟨fun _ => strLt_asymm _ _ h1, fun _ => by decide⟩
  · constructor
    · intro hc; exact absurd hc (by decide)
    · intro hc; rw [hc] at h2; cases h2
  · constructor
    · intro _; simpa using h2
    · intro _; decide

instance : IsTotal ProcTuple compLe :=
  ⟨fun a b => by
    rw [compLe_iff, compLe_iff]
    cases h : strLt (toLowerJs b.name) (toLowerJs a.name) with
    | false => exact Or.inl rfl
    | true => exact Or.inr (strLt_asymm _ _ h)⟩

instance : IsTrans ProcTuple compLe :=
  ⟨fun a b c hab hbc => by
    rw [compLe_iff] at hab hbc ⊢
    exact lexLt_false_trans _ _ _ hab hbc⟩

/-- Inserting a tuple of the key class `s` puts it in front of every
other member of that class already present (stability, positive
case). -/
theorem orderedInsert_filter_pos (s : String) (x : ProcTuple)
    (hx : pKey s x = true) :
    ∀ l : List ProcTuple,
      (l.orderedInsert compLe x).filter (pKey s) = x :: l.filter (pKey s)
  | [] => by simp [List.orderedInsert, hx]
  | y :: ys => by
    by_cases hxy : compLe x y
    · rw [List.orderedInsert, if_pos hxy]
      simp [List.filter_cons, hx]
    · rw [List.orderedInsert, if_neg hxy]
      have hy : pKey s y = false := by
        cases h : pKey s y with
        | false => rfl
        | true =>
          exfalso
          apply hxy
          rw [compLe_iff]
          have hkx : toLowerJs x.name = s := by
            have := hx; unfold pKey at this; exact eq_of_beq this
          have hky : toLowerJs y.name = s := by
            have := h; unfold pKey at this; exact eq_of_beq this
          rw [hkx, hky]
          exact strLt_irrefl s
      simp [List.filter_cons, hy, orderedInsert_filter_pos s x hx ys]

/-- Inserting a tuple outside the key class `s` leaves that class's
subsequence unchanged (stability, negative case). -/
theorem orderedInsert_filter_neg (s : String) (x : ProcTuple)
    (hx : pKey s x = false) :
    ∀ l : List ProcTuple,
      (l.orderedInsert compLe x).filter (pKey s) = l.filter (pKey s)
  | [] => by simp [List.orderedInsert, hx]
  | y :: ys => by
    by_cases hxy : compLe x y
    · rw [List.orderedInsert, if_pos hxy]
      simp [List.filter_cons, hx]
    · rw [List.orderedInsert, if_neg hxy]
      simp [List.filter_cons, orderedInsert_filter_neg s x hx ys]

/-- The modelled `Array.prototype.sort` is stable: it preserves the
relative order of tuples within each comparator-equivalence class. -/
theorem jsSort_filter (s : String) :
    ∀ l : List ProcTuple, (jsSort l).filter (pKey s) = l.filter (pKey s)
  | [] => rfl
  | x :: xs => by
    have hxs := jsSort_filter s xs
    unfold jsSort at hxs ⊢
    rw [List.insertionSort]
    cases h : pKey s x with
    | false =>
      rw [orderedInsert_filter_neg s x h (xs.insertionSort compLe), hxs]
      simp [List.filter_cons, h]
    | true =>
      rw [orderedInsert_filter_pos s x h (xs.insertionSort compLe), hxs]
      simp [List.filter_cons, h]

/-- The single pass of `allProcedures` partitions the tuple sequence by
the return flag, preserving `getAllBlocks` order. -/
theorem partitionProcs_eq :
    ∀ l : List Block,
      partitionProcs l =
        ((l.filterMap blockTuple).filter (fun t => !t.hasReturn),
         (l.filterMap blockTuple).filter (fun t => t.hasReturn))
  | [] => rfl
  | b :: bs => by
    have ih := partitionProcs_eq bs
    cases hpd : b.procDef with
    | none =>
      simp [partitionProcs, hpd, ih, blockTuple, List.filterMap_cons]
    | some pd =>
      cases pd with
      | none =>
        simp [partitionProcs, hpd, ih, blockTuple, List.filterMap_cons]
      | some t =>
        cases ht : t.hasReturn with
        | true =>
          simp [partitionProcs, hpd, ih, blockTuple, List.filterMap_cons,
            List.filter_cons, ht]
        | false =>
          simp [partitionProcs, hpd, ih, blockTuple, List.filterMap_cons,
            List.filter_cons, ht]

/-- Claim C8: `allProcedures` returns the tuples of every
definition-describing block partitioned by the return flag (no-return
first); each list is sorted by the case-insensitive comparator, and
tuples with case-insensitively equal names keep their original
relative order (stability).  The operation is a pure function of the
workspace. -/
theorem c8_allProcedures_sorted_stable (ws : Workspace) :
    (allProcedures ws).1.Perm
      ((procDefsOf ws).filter (fun t => !t.hasReturn)) ∧
    (allProcedures ws).2.Perm
      ((procDefsOf ws).filter (fun t => t.hasReturn)) ∧
    List.Sorted compLe (allProcedures ws).1 ∧
    List.Sorted compLe (allProcedures ws).2 ∧
    (∀ s : String, ((allProcedures ws).1.filter (pKey s) =
      ((procDefsOf ws).filter (fun t => !t.hasReturn)).filter (pKey s))) ∧
    (∀ s : String, ((allProcedures ws).2.filter (pKey s) =
      ((procDefsOf ws).filter (fun t => t.hasReturn)).filter (pKey s))) := by
  have hpart := partitionProcs_eq ws.getAllBlocks
  unfold allProcedures procDefsOf
  rw [hpart]
  refine ⟨?_, ?_, ?_, ?_, ?_, ?_⟩
  · exact List.perm_insertionSort compLe _
  · exact List.perm_insertionSort compLe _
  · exact List.sorted_insertionSort compLe _
  · exact List.sorted_insertionSort compLe _
  · intro s; exact jsSort_filter s _
  · intro s; exact jsSort_filter s _

end Procedures
